/-
Verification of the timeduration library (include/timeduration/timeduration.hpp).

The development shallowly embeds the library: the scanner (CTimePeriod::CScanner)
becomes a fuel-indexed structural recursion over the character list of the source
string, the std::map accumulators become association lists (iteration order only
affects the order of a commutative sum), int64_t arithmetic becomes Int with
C-style truncating division (Int.tdiv / Int.tmod), and std::format("{}", n)
becomes an explicit decimal renderer.
-/
import Mathlib

namespace timeduration

/-- Numeric value of a run of decimal digit characters, as std::stoll computes it
for a digit-only string. -/
def digitsVal (l : List Char) : Nat :=
  l.foldl (fun a c => 10 * a + (c.toNat - 48)) 0

/-- Decimal digit characters of a positive number, most significant first.
The first argument is fuel; fuel n suffices for rendering n. -/
def natToCharsAux : Nat → Nat → List Char
  | 0, _ => []
  | f + 1, n => if n = 0 then [] else natToCharsAux f (n / 10) ++ [Char.ofNat (48 + n % 10)]

/-- Decimal rendering of a natural number, as std::format("{}", n) produces it. -/
def natToChars (n : Nat) : List Char :=
  if n = 0 then ['0'] else natToCharsAux n n

/-- Decimal rendering of a natural number as a string. -/
def natToString (n : Nat) : String :=
  String.mk (natToChars n)

/-- Decimal rendering of a signed 64-bit integer, as std::format("{}", n)
produces it: a minus sign followed by the absolute value when negative. -/
def intToString (i : Int) : String :=
  if i < 0 then "-" ++ natToString i.natAbs else natToString i.natAbs

/-- TokenHolder: std::map<std::string, int64_t>, mapping unit literals to
multipliers, modelled as an association list. -/
def TokenHolder : Type := List (String × Int)

/-- ResultHolder: std::map<int64_t, int64_t>, mapping multipliers to accumulated
values, modelled as an association list. -/
def ResultHolder : Type := List (Int × Int)

/-- Lookup of a literal in the token table (exact, case-sensitive match), as
std::map::contains / operator[] behave. -/
def lookupTok (lit : String) : List (String × Int) → Option Int
  | [] => none
  | (k, v) :: rest => if k = lit then some v else lookupTok lit rest

/-- Lookup of a multiplier in the result accumulator. -/
def lookupRes (m : Int) : List (Int × Int) → Option Int
  | [] => none
  | (k, w) :: rest => if k = m then some w else lookupRes m rest

/-- CScanner::AddValue(int64_t, int64_t): if the multiplier already has an
accumulated value, add to it, otherwise insert the new entry. -/
def addMultValue (m v : Int) : List (Int × Int) → List (Int × Int)
  | [] => [(m, v)]
  | (k, w) :: rest => if k = m then (k, w + v) :: rest else (k, w) :: addMultValue m v rest

/-- CScanner::AddValue(std::string_view, int64_t): look the literal up in the
token table; accumulate under the found multiplier, or silently drop the token. -/
def addLiteralValue (lit : String) (v : Int) (toks : List (String × Int))
    (res : List (Int × Int)) : List (Int × Int) :=
  match lookupTok lit toks with
  | some m => addMultValue m v res
  | none => res

/-- CScanner::ScanTokens loop body. Each iteration consumes one character; if it
is a digit, the maximal digit run (the numeric literal) and the maximal following
alphabetic run (the unit literal) are consumed and resolved: an empty unit
literal accumulates under multiplier 60, a non-empty one is looked up in the
token table. The first argument is fuel; since every iteration consumes at least
one character, fuel equal to the length of the remaining input suffices. -/
def scanLoop (toks : List (String × Int)) : Nat → List Char → List (Int × Int) → List (Int × Int)
  | 0, _, res => res
  | _ + 1, [], res => res
  | f + 1, c :: rest, res =>
    if c.isDigit then
      let digs := rest.takeWhile Char.isDigit
      let rest1 := rest.dropWhile Char.isDigit
      let value : Int := Int.ofNat (digitsVal (c :: digs))
      let lits := rest1.takeWhile Char.isAlpha
      let rest2 := rest1.dropWhile Char.isAlpha
      let res1 := if lits = [] then addMultValue 60 value res
                  else addLiteralValue (String.mk lits) value toks res
      scanLoop toks f rest2 res1
    else
      scanLoop toks f rest res

/-- Run the scanner on a character list starting from a given accumulator. -/
def scanFrom (toks : List (String × Int)) (l : List Char) (res : List (Int × Int)) :
    List (Int × Int) :=
  scanLoop toks l.length l res

/-- CScanner::ScanTokens: scan the whole source starting from the empty
accumulator. -/
def ScanTokens (toks : List (String × Int)) (source : List Char) : List (Int × Int) :=
  scanFrom toks source []

/-- The unit table hardcoded at the call site of CTimePeriod::Parse. -/
def tokenTable : List (String × Int) :=
  [("s", 1), ("seconds", 1),
   ("m", 60), ("minutes", 60),
   ("h", 3600), ("hours", 3600),
   ("d", 86400), ("days", 86400),
   ("mo", 2419200), ("months", 2419200),
   ("y", 31536000), ("years", 31536000)]

/-- Total seconds of an accumulator: the sum of multiplier * value over all
entries, as the range-for loop in CTimePeriod::Parse computes it (iteration
order is irrelevant to the commutative sum). -/
def totalOf (res : List (Int × Int)) : Int :=
  res.foldl (fun a p => a + p.1 * p.2) 0

/-- CTimePeriod::Parse: scan the source with the hardcoded unit table and sum
multiplier * value over the accumulator. -/
def Parse (source : String) : Int :=
  totalOf (ScanTokens tokenTable source.data)

/-- CTimePeriod: the total duration in seconds together with the normalized
components computed by Validate. -/
structure CTimePeriod where
  totalDuration : Int
  days : Int
  hours : Int
  minutes : Int
  seconds : Int
deriving DecidableEq

/-- CTimePeriod::Validate: normalize a total-seconds count into components using
C-style truncating division and remainder. -/
def Validate (t : Int) : CTimePeriod :=
  let d := t.tdiv 86400
  let r1 := t.tmod 86400
  let h := r1.tdiv 3600
  let r2 := r1.tmod 3600
  let m := r2.tdiv 60
  let s := r2.tmod 60
  ⟨t, d, h, m, s⟩

/-- CTimePeriod(seconds, minutes, hours, days): the component constructor. -/
def mkFromComponents (seconds minutes hours days : Int) : CTimePeriod :=
  Validate (seconds + minutes * 60 + hours * 3600 + days * 86400)

/-- CTimePeriod(std::string_view): the parsing constructor. -/
def mkFromString (source : String) : CTimePeriod :=
  Validate (Parse source)

/-- CTimePeriod(std::chrono::seconds): the raw total-seconds constructor. -/
def mkFromSeconds (t : Int) : CTimePeriod :=
  Validate t

/-- CTimePeriod::ParseFactory. -/
def ParseFactory (source : String) : CTimePeriod :=
  mkFromSeconds (Parse source)

/-- CTimePeriod::duration accessor. -/
def duration (p : CTimePeriod) : Int :=
  p.totalDuration

/-- CTimePeriod::isZero. -/
def isZero (p : CTimePeriod) : Bool :=
  p.totalDuration = 0

/-- CTimePeriod::asSqlInterval. -/
def asSqlInterval (p : CTimePeriod) : String :=
  "interval " ++ intToString p.totalDuration ++ " second"

/-- CTimePeriod::toString: append a component with a trailing space for each of
days, hours and minutes when positive; append the seconds component without a
trailing space when positive or when nothing was appended so far. -/
def toString (p : CTimePeriod) : String :=
  let r1 := if p.days > 0 then intToString p.days ++ "d " else ""
  let r2 := if p.hours > 0 then r1 ++ intToString p.hours ++ "h " else r1
  let r3 := if p.minutes > 0 then r2 ++ intToString p.minutes ++ "m " else r2
  if p.seconds > 0 ∨ r3 = "" then r3 ++ intToString p.seconds ++ "s" else r3

/-- Strict ordering induced by the defaulted operator<=>, which compares the
members lexicographically in declaration order: total duration first, then the
normalized components. -/
def cLT (a b : CTimePeriod) : Prop :=
  a.totalDuration < b.totalDuration ∨
    (a.totalDuration = b.totalDuration ∧
      (a.days < b.days ∨ (a.days = b.days ∧
        (a.hours < b.hours ∨ (a.hours = b.hours ∧
          (a.minutes < b.minutes ∨ (a.minutes = b.minutes ∧ a.seconds < b.seconds)))))))

/-- A value produced by one of the three construction variants: from components,
from a parsed string, or from a raw total-seconds count. -/
def Constructed (p : CTimePeriod) : Prop :=
  (∃ s m h d, p = mkFromComponents s m h d) ∨
    (∃ source, p = mkFromString source) ∨
      (∃ t, p = mkFromSeconds t)

/-- Formatter following the claim wording literally: emit the components in
order with zero-valued ones omitted (seconds kept when nothing else is emitted)
and join them with single spaces, so the last emitted component carries no
trailing space. -/
def claimToString (d h m s : Int) : String :=
  String.intercalate " "
    ((if d > 0 then [intToString d ++ "d"] else []) ++
      (if h > 0 then [intToString h ++ "h"] else []) ++
        (if m > 0 then [intToString m ++ "m"] else []) ++
          (if s > 0 ∨ (d ≤ 0 ∧ h ≤ 0 ∧ m ≤ 0) then [intToString s ++ "s"] else []))

/-- Formatter following the amended claim wording: emit the components in order
with zero-valued ones omitted (seconds kept when nothing else is emitted); the
days, hours and minutes components each carry a trailing space even when final,
only the seconds component carries none. -/
def amendedToString (d h m s : Int) : String :=
  (if d > 0 then intToString d ++ "d " else "") ++
    (if h > 0 then intToString h ++ "h " else "") ++
      (if m > 0 then intToString m ++ "m " else "") ++
        (if s > 0 ∨ (d ≤ 0 ∧ h ≤ 0 ∧ m ≤ 0) then intToString s ++ "s" else "")

theorem length_dropWhile_le (p : Char → Bool) (l : List Char) :
    (l.dropWhile p).length ≤ l.length := by
  induction l with
  | nil => simp
  | cons c rest ih =>
    rw [List.dropWhile_cons]
    by_cases h : p c = true
    · simp only [h, if_true]
      exact Nat.le_trans ih (Nat.le_succ _)
    · simp only [h]
      simp

theorem scanLoop_congr (toks : List (String × Int)) :
    ∀ (f g : Nat) (l : List Char) (res : List (Int × Int)),
      l.length ≤ f → l.length ≤ g → scanLoop toks f l res = scanLoop toks g l res := by
  intro f
  induction f with
  | zero =>
    intro g l res hf _
    have hl : l = [] := List.eq_nil_of_length_eq_zero (Nat.le_zero.mp hf)
    subst hl
    cases g <;> rfl
  | succ f ih =>
    intro g l res hf hg
    cases l with
    | nil => cases g <;> rfl
    | cons c rest =>
      cases g with
      | zero => simp at hg
      | succ g =>
        simp only [scanLoop]
        have hrest : rest.length ≤ f := by simp at hf; omega
        have hrest2 : rest.length ≤ g := by simp at hg; omega
        by_cases hc : c.isDigit = true
        · simp only [hc, if_true]
          apply ih
          · calc ((rest.dropWhile Char.isDigit).dropWhile Char.isAlpha).length
                ≤ (rest.dropWhile Char.isDigit).length := length_dropWhile_le _ _
              _ ≤ rest.length := length_dropWhile_le _ _
              _ ≤ f := hrest
          · calc ((rest.dropWhile Char.isDigit).dropWhile Char.isAlpha).length
                ≤ (rest.dropWhile Char.isDigit).length := length_dropWhile_le _ _
              _ ≤ rest.length := length_dropWhile_le _ _
              _ ≤ g := hrest2
        · simp only [hc, if_false]
          exact ih g rest res hrest hrest2

theorem scanFrom_nil (toks : List (String × Int)) (res : List (Int × Int)) :
    scanFrom toks [] res = res := rfl

theorem scanFrom_skip (toks : List (String × Int)) (c : Char) (rest : List Char)
    (res : List (Int × Int)) (hc : c.isDigit = false) :
    scanFrom toks (c :: rest) res = scanFrom toks rest res := by
  show scanLoop toks (c :: rest).length (c :: rest) res = _
  simp only [List.length_cons, scanLoop, hc, if_false]
  rfl

theorem takeWhile_append_all (p : Char → Bool) (xs ys : List Char)
    (h : ∀ x ∈ xs, p x = true) :
    (xs ++ ys).takeWhile p = xs ++ ys.takeWhile p := by
  induction xs with
  | nil => simp
  | cons a xs ih =>
    have ha : p a = true := h a (List.mem_cons_self a xs)
    simp only [List.cons_append, List.takeWhile_cons, ha, if_true]
    rw [ih (fun x hx => h x (List.mem_cons_of_mem a hx))]

theorem dropWhile_append_all (p : Char → Bool) (xs ys : List Char)
    (h : ∀ x ∈ xs, p x = true) :
    (xs ++ ys).dropWhile p = ys.dropWhile p := by
  induction xs with
  | nil => simp
  | cons a xs ih =>
    have ha : p a = true := h a (List.mem_cons_self a xs)
    simp only [List.cons_append, List.dropWhile_cons, ha, if_true]
    exact ih (fun x hx => h x (List.mem_cons_of_mem a hx))

theorem takeWhile_eq_nil_of_head (p : Char → Bool) (l : List Char)
    (h : ∀ c ∈ l.head?, p c = false) :
    l.takeWhile p = [] := by
  cases l with
  | nil => rfl
  | cons c rest =>
    have hc : p c = false := h c (by simp)
    simp [List.takeWhile_cons, hc]

theorem dropWhile_eq_self_of_head (p : Char → Bool) (l : List Char)
    (h : ∀ c ∈ l.head?, p c = false) :
    l.dropWhile p = l := by
  cases l with
  | nil => rfl
  | cons c rest =>
    have hc : p c = false := h c (by simp)
    simp [List.dropWhile_cons, hc]

theorem scanFrom_token (toks : List (String × Int)) (ds rest : List Char)
    (res : List (Int × Int)) (hne : ds ≠ []) (hdig : ∀ c ∈ ds, c.isDigit = true)
    (htw : rest.takeWhile Char.isDigit = []) (hdw : rest.dropWhile Char.isDigit = rest) :
    scanFrom toks (ds ++ rest) res =
      scanFrom toks (rest.dropWhile Char.isAlpha)
        (if rest.takeWhile Char.isAlpha = [] then
          addMultValue 60 (Int.ofNat (digitsVal ds)) res
        else
          addLiteralValue (String.mk (rest.takeWhile Char.isAlpha))
            (Int.ofNat (digitsVal ds)) toks res) := by
  obtain ⟨c, ds', rfl⟩ : ∃ c ds', ds = c :: ds' := by
    cases ds with
    | nil => exact absurd rfl hne
    | cons c ds' => exact ⟨c, ds', rfl⟩
  have hc : c.isDigit = true := hdig c (List.mem_cons_self c ds')
  have hds' : ∀ x ∈ ds', x.isDigit = true := fun x hx => hdig x (List.mem_cons_of_mem c hx)
  show scanLoop toks ((c :: ds') ++ rest).length ((c :: ds') ++ rest) res = _
  simp only [List.cons_append, List.length_cons, scanLoop, hc, if_true]
  simp only [List.append_eq]
  rw [takeWhile_append_all Char.isDigit ds' rest hds', htw,
    dropWhile_append_all Char.isDigit ds' rest hds', hdw, List.append_nil]
  apply scanLoop_congr
  · calc (rest.dropWhile Char.isAlpha).length
        ≤ rest.length := length_dropWhile_le _ _
      _ ≤ (ds' ++ rest).length := by simp
  · exact Nat.le_refl _

theorem char_digit_toNat (r : Nat) (hr : r < 10) : (Char.ofNat (48 + r)).toNat = 48 + r := by
  interval_cases r <;> decide

theorem char_digit_isDigit (r : Nat) (hr : r < 10) : (Char.ofNat (48 + r)).isDigit = true := by
  interval_cases r <;> decide

theorem natToCharsAux_zero (f : Nat) : natToCharsAux f 0 = [] := by
  cases f <;> simp [natToCharsAux]

theorem natToCharsAux_digits (f : Nat) :
    ∀ (n : Nat), ∀ c ∈ natToCharsAux f n, c.isDigit = true := by
  induction f with
  | zero => intro n c hc; simp [natToCharsAux] at hc
  | succ f ih =>
    intro n c hc
    by_cases hn : n = 0
    · subst hn; simp [natToCharsAux] at hc
    · simp only [natToCharsAux, hn, if_false, List.mem_append, List.mem_singleton] at hc
      rcases hc with hc | hc
      · exact ih (n / 10) c hc
      · subst hc
        exact char_digit_isDigit (n % 10) (Nat.mod_lt n (by omega))

theorem natToCharsAux_ne_nil (f n : Nat) (hn : 0 < n) (hf : n ≤ f) :
    natToCharsAux f n ≠ [] := by
  cases f with
  | zero => omega
  | succ f =>
    simp only [natToCharsAux, Nat.pos_iff_ne_zero.mp hn, if_false]
    simp

theorem natToCharsAux_val (f : Nat) :
    ∀ (n : Nat), n ≤ f → 0 < n → ∀ (a : Nat),
      ∃ k, List.foldl (fun a c => 10 * a + (c.toNat - 48)) a (natToCharsAux f n) =
        a * 10 ^ k + n := by
  induction f with
  | zero => intro n hf hn; omega
  | succ f ih =>
    intro n hf hn a
    have hn' : n ≠ 0 := by omega
    simp only [natToCharsAux, hn', if_false]
    rw [List.foldl_append]
    have hmod : n % 10 < 10 := Nat.mod_lt n (by omega)
    have hchar : (Char.ofNat (48 + n % 10)).toNat - 48 = n % 10 := by
      rw [char_digit_toNat (n % 10) hmod]; omega
    by_cases hq : n / 10 = 0
    · rw [hq, natToCharsAux_zero]
      simp only [List.foldl_cons, List.foldl_nil]
      refine ⟨1, ?_⟩
      rw [hchar]
      have : n % 10 = n := by omega
      rw [this]
      ring
    · have hq1 : 0 < n / 10 := Nat.pos_of_ne_zero hq
      have hq2 : n / 10 ≤ f := by
        have : n / 10 < n := Nat.div_lt_self hn (by omega)
        omega
      obtain ⟨k, hk⟩ := ih (n / 10) hq2 hq1 a
      refine ⟨k + 1, ?_⟩
      simp only [List.foldl_cons, List.foldl_nil]
      rw [hk, hchar]
      have : n = 10 * (n / 10) + n % 10 := (Nat.div_add_mod n 10).symm
      calc 10 * (a * 10 ^ k + n / 10) + n % 10
          = a * 10 ^ (k + 1) + (10 * (n / 10) + n % 10) := by ring
        _ = a * 10 ^ (k + 1) + n := by omega

theorem natToChars_digits (n : Nat) : ∀ c ∈ natToChars n, c.isDigit = true := by
  intro c hc
  by_cases hn : n = 0
  · subst hn
    simp [natToChars] at hc
    subst hc
    decide
  · simp only [natToChars, hn, if_false] at hc
    exact natToCharsAux_digits n n c hc

theorem natToChars_ne_nil (n : Nat) : natToChars n ≠ [] := by
  by_cases hn : n = 0
  · subst hn; simp [natToChars]
  · simp only [natToChars, hn, if_false]
    exact natToCharsAux_ne_nil n n (Nat.pos_of_ne_zero hn) (Nat.le_refl n)

theorem digitsVal_natToChars (n : Nat) : digitsVal (natToChars n) = n := by
  by_cases hn : n = 0
  · subst hn; decide
  · simp only [natToChars, hn, if_false, digitsVal]
    obtain ⟨k, hk⟩ :=
      natToCharsAux_val n n (Nat.le_refl n) (Nat.pos_of_ne_zero hn) 0
    rw [hk]
    ring

theorem foldl_totalOf (res : List (Int × Int)) :
    ∀ (a : Int), List.foldl (fun a p => a + p.1 * p.2) a res = a + totalOf res := by
  induction res with
  | nil => intro a; simp [totalOf]
  | cons p rest ih =>
    intro a
    simp only [totalOf, List.foldl_cons]
    rw [ih (a + p.1 * p.2), ih (0 + p.1 * p.2)]
    ring

theorem totalOf_nil : totalOf [] = 0 := rfl

theorem totalOf_addMultValue (m v : Int) (res : List (Int × Int)) :
    totalOf (addMultValue m v res) = totalOf res + m * v := by
  induction res with
  | nil => simp [addMultValue, totalOf]
  | cons p rest ih =>
    obtain ⟨k, w⟩ := p
    by_cases hk : k = m
    · subst hk
      simp only [addMultValue, if_pos rfl, if_true, totalOf, List.foldl_cons]
      rw [foldl_totalOf, foldl_totalOf]
      ring
    · simp only [addMultValue, if_neg hk, totalOf, List.foldl_cons]
      rw [foldl_totalOf, foldl_totalOf]
      rw [ih]
      ring

theorem totalOf_addLiteralValue (lit : String) (v : Int) (toks : List (String × Int))
    (res : List (Int × Int)) :
    totalOf (addLiteralValue lit v toks res) =
      totalOf res + (match lookupTok lit toks with | some m => m * v | none => 0) := by
  unfold addLiteralValue
  cases h : lookupTok lit toks with
  | some m => simp [totalOf_addMultValue]
  | none => simp

theorem totalOf_scanLoop (toks : List (String × Int)) :
    ∀ (f : Nat) (l : List Char) (res : List (Int × Int)),
      totalOf (scanLoop toks f l res) = totalOf res + totalOf (scanLoop toks f l []) := by
  intro f
  induction f with
  | zero => intro l res; simp [scanLoop, totalOf]
  | succ f ih =>
    intro l res
    cases l with
    | nil => simp [scanLoop, totalOf]
    | cons c rest =>
      by_cases hc : c.isDigit = true
      · simp only [scanLoop, hc, if_true]
        by_cases hl : (rest.dropWhile Char.isDigit).takeWhile Char.isAlpha = []
        · simp only [hl, if_pos rfl, if_true]
          rw [ih _ (addMultValue 60 _ res), ih _ (addMultValue 60 _ [])]
          rw [totalOf_addMultValue, totalOf_addMultValue, totalOf_nil]
          ring
        · simp only [hl, if_neg hl, if_false]
          rw [ih _ (addLiteralValue _ _ _ res), ih _ (addLiteralValue _ _ _ [])]
          rw [totalOf_addLiteralValue, totalOf_addLiteralValue, totalOf_nil]
          ring
      · simp only [scanLoop, hc, if_false]
        exact ih rest res

theorem totalOf_scanFrom (toks : List (String × Int)) (l : List Char)
    (res : List (Int × Int)) :
    totalOf (scanFrom toks l res) = totalOf res + totalOf (ScanTokens toks l) := by
  unfold scanFrom ScanTokens scanFrom
  exact totalOf_scanLoop toks l.length l res

theorem alpha_not_digit (c : Char) (h : c.isAlpha = true) : c.isDigit = false := by
  cases hd : c.isDigit with
  | false => rfl
  | true =>
    exfalso
    simp only [Char.isAlpha, Char.isUpper, Char.isLower, Bool.or_eq_true,
      Bool.and_eq_true, decide_eq_true_eq] at h
    simp only [Char.isDigit, Bool.and_eq_true, decide_eq_true_eq] at hd
    obtain ⟨d1, d2⟩ := hd
    have e48 : (UInt32.toBitVec 48).toNat = 48 := rfl
    have e57 : (UInt32.toBitVec 57).toNat = 57 := rfl
    have e65 : (UInt32.toBitVec 65).toNat = 65 := rfl
    have e90 : (UInt32.toBitVec 90).toNat = 90 := rfl
    have e97 : (UInt32.toBitVec 97).toNat = 97 := rfl
    have e122 : (UInt32.toBitVec 122).toNat = 122 := rfl
    rcases h with ⟨h1, h2⟩ | ⟨h1, h2⟩ <;>
      (simp only [ge_iff_le, UInt32.le_def, BitVec.le_def] at h1 h2 d1 d2; omega)

theorem scanFrom_unitPart (n : Nat) (u : Char) (mult : Int) (rest : List Char)
    (res : List (Int × Int)) (hA : u.isAlpha = true) (hD : u.isDigit = false)
    (hlook : lookupTok (String.mk [u]) tokenTable = some mult) :
    scanFrom tokenTable (natToChars n ++ u :: ' ' :: rest) res =
      scanFrom tokenTable rest (addMultValue mult (Int.ofNat n) res) := by
  rw [scanFrom_token tokenTable (natToChars n) (u :: ' ' :: rest) res
    (natToChars_ne_nil n) (natToChars_digits n)
    (takeWhile_eq_nil_of_head _ _ (by intro c hc; simp at hc; subst hc; exact hD))
    (dropWhile_eq_self_of_head _ _ (by intro c hc; simp at hc; subst hc; exact hD))]
  have htw : List.takeWhile Char.isAlpha (u :: ' ' :: rest) = [u] := by
    simp [List.takeWhile_cons, hA, show Char.isAlpha ' ' = false from by decide]
  have hdw : List.dropWhile Char.isAlpha (u :: ' ' :: rest) = ' ' :: rest := by
    simp [List.dropWhile_cons, hA, show Char.isAlpha ' ' = false from by decide]
  rw [htw, hdw, digitsVal_natToChars]
  rw [if_neg (by simp : ¬([u] : List Char) = [])]
  rw [show addLiteralValue (String.mk [u]) (Int.ofNat n) tokenTable res =
    addMultValue mult (Int.ofNat n) res by unfold addLiteralValue; rw [hlook]]
  exact scanFrom_skip tokenTable ' ' rest _ (by decide)

theorem scanFrom_endPart (n : Nat) (u : Char) (mult : Int) (res : List (Int × Int))
    (hA : u.isAlpha = true) (hD : u.isDigit = false)
    (hlook : lookupTok (String.mk [u]) tokenTable = some mult) :
    scanFrom tokenTable (natToChars n ++ [u]) res = addMultValue mult (Int.ofNat n) res := by
  rw [scanFrom_token tokenTable (natToChars n) [u] res
    (natToChars_ne_nil n) (natToChars_digits n)
    (takeWhile_eq_nil_of_head _ _ (by intro c hc; simp at hc; subst hc; exact hD))
    (dropWhile_eq_self_of_head _ _ (by intro c hc; simp at hc; subst hc; exact hD))]
  have htw : List.takeWhile Char.isAlpha [u] = [u] := by
    simp [List.takeWhile_cons, hA]
  have hdw : List.dropWhile Char.isAlpha [u] = [] := by
    simp [List.dropWhile_cons, hA]
  rw [htw, hdw, digitsVal_natToChars]
  rw [if_neg (by simp : ¬([u] : List Char) = [])]
  rw [show addLiteralValue (String.mk [u]) (Int.ofNat n) tokenTable res =
    addMultValue mult (Int.ofNat n) res by unfold addLiteralValue; rw [hlook]]
  rfl

theorem total_part (d : Int) (u : Char) (mult : Int) (rest : List Char) (hd : 0 ≤ d)
    (hA : u.isAlpha = true) (hD : u.isDigit = false)
    (hlook : lookupTok (String.mk [u]) tokenTable = some mult) :
    totalOf (ScanTokens tokenTable
        ((if d > 0 then natToChars d.toNat ++ [u, ' '] else []) ++ rest)) =
      mult * d + totalOf (ScanTokens tokenTable rest) := by
  by_cases h : d > 0
  · rw [if_pos h]
    have e1 : (natToChars d.toNat ++ [u, ' ']) ++ rest =
        natToChars d.toNat ++ u :: ' ' :: rest := by simp
    rw [e1]
    show totalOf (scanFrom tokenTable (natToChars d.toNat ++ u :: ' ' :: rest) []) = _
    rw [scanFrom_unitPart d.toNat u mult rest [] hA hD hlook]
    rw [totalOf_scanFrom, totalOf_addMultValue, totalOf_nil]
    rw [show (Int.ofNat d.toNat) = d from by exact_mod_cast Int.toNat_of_nonneg hd]
    ring
  · have hd0 : d = 0 := by omega
    rw [if_neg h, List.nil_append, hd0]
    ring

theorem total_endPart (d h m s : Int) (hs : 0 ≤ s) :
    totalOf (ScanTokens tokenTable
        (if s > 0 ∨ (d ≤ 0 ∧ h ≤ 0 ∧ m ≤ 0) then natToChars s.toNat ++ ['s'] else [])) =
      s := by
  by_cases hc : s > 0 ∨ (d ≤ 0 ∧ h ≤ 0 ∧ m ≤ 0)
  · rw [if_pos hc]
    show totalOf (scanFrom tokenTable (natToChars s.toNat ++ ['s']) []) = s
    rw [scanFrom_endPart s.toNat 's' 1 [] (by decide) (by decide) (by decide)]
    rw [totalOf_addMultValue, totalOf_nil]
    rw [show (Int.ofNat s.toNat) = s from by exact_mod_cast Int.toNat_of_nonneg hs]
    ring
  · rw [if_neg hc]
    have hs0 : s = 0 := by
      rcases not_or.mp hc with ⟨h1, _⟩
      omega
    rw [hs0]
    rfl

theorem data_empty : ("" : String).data = [] := rfl

theorem data_dspace : ("d " : String).data = ['d', ' '] := rfl

theorem data_hspace : ("h " : String).data = ['h', ' '] := rfl

theorem data_mspace : ("m " : String).data = ['m', ' '] := rfl

theorem data_sunit : ("s" : String).data = ['s'] := rfl

theorem append_eq_empty_iff (a b : String) : a ++ b = "" ↔ a = "" ∧ b = "" := by
  constructor
  · intro h
    have hd : (a ++ b).data = [] := by rw [h]
    rw [String.data_append] at hd
    rcases List.append_eq_nil.mp hd with ⟨ha, hb⟩
    exact ⟨String.ext (ha.trans data_empty.symm), String.ext (hb.trans data_empty.symm)⟩
  · rintro ⟨rfl, rfl⟩
    rfl

theorem append_unit_ne_empty (a b : String) (hb : b ≠ "") : a ++ b ≠ "" :=
  fun hcon => hb ((append_eq_empty_iff a b).mp hcon).2

theorem natToString_ne_empty (n : Nat) : natToString n ≠ "" := by
  intro h
  have hd : (natToString n).data = [] := by rw [h]
  exact natToChars_ne_nil n hd

theorem intToString_ne_empty (i : Int) : intToString i ≠ "" := by
  unfold intToString
  by_cases h : i < 0
  · rw [if_pos h]
    intro hcon
    rcases (append_eq_empty_iff _ _).mp hcon with ⟨h1, _⟩
    exact absurd h1 (by decide)
  · rw [if_neg h]
    exact natToString_ne_empty _

theorem data_intToString_nonneg (i : Int) (h : 0 ≤ i) :
    (intToString i).data = natToChars i.toNat := by
  unfold intToString
  rw [if_neg (not_lt.mpr h)]
  rw [show i.natAbs = i.toNat from by omega]
  rfl

theorem dspace_ne_empty : ("d " : String) ≠ "" := by decide

theorem hspace_ne_empty : ("h " : String) ≠ "" := by decide

theorem mspace_ne_empty : ("m " : String) ≠ "" := by decide

theorem toString_parts (p : CTimePeriod) :
    toString p = amendedToString p.days p.hours p.minutes p.seconds := by
  unfold toString amendedToString
  by_cases hd : p.days > 0 <;> by_cases hh : p.hours > 0 <;> by_cases hm : p.minutes > 0 <;>
    by_cases hs : p.seconds > 0 <;>
    simp only [hd, hh, hm, if_true, if_false] <;>
    split_ifs
  any_goals (apply String.ext; simp [String.data_append, data_empty])
  all_goals exfalso
  all_goals simp_all [append_eq_empty_iff, intToString_ne_empty, dspace_ne_empty,
    hspace_ne_empty, mspace_ne_empty]
  all_goals omega

theorem amendedToString_data (d h m s : Int) (hd : 0 ≤ d) (hh : 0 ≤ h) (hm : 0 ≤ m)
    (hs : 0 ≤ s) :
    (amendedToString d h m s).data =
      (if d > 0 then natToChars d.toNat ++ ['d', ' '] else []) ++
        ((if h > 0 then natToChars h.toNat ++ ['h', ' '] else []) ++
          ((if m > 0 then natToChars m.toNat ++ ['m', ' '] else []) ++
            (if s > 0 ∨ (d ≤ 0 ∧ h ≤ 0 ∧ m ≤ 0) then natToChars s.toNat ++ ['s'] else []))) := by
  unfold amendedToString
  split_ifs <;>
    simp [String.data_append, data_empty, data_dspace, data_hspace, data_mspace, data_sunit,
      data_intToString_nonneg, hd, hh, hm, hs]

theorem ofNat_nonneg_int (n : Nat) : (0 : Int) ≤ Int.ofNat n := by
  rw [Int.ofNat_eq_natCast]
  exact Int.natCast_nonneg n

theorem constructed_validate (p : CTimePeriod) (hc : Constructed p) : ∃ t, p = Validate t := by
  rcases hc with ⟨s, m, h, d, rfl⟩ | ⟨src, rfl⟩ | ⟨t, rfl⟩
  · exact ⟨_, rfl⟩
  · exact ⟨_, rfl⟩
  · exact ⟨_, rfl⟩

theorem validate_nonneg_spec (T : Nat) :
    (Validate (Int.ofNat T)).days * 86400 + (Validate (Int.ofNat T)).hours * 3600 +
        (Validate (Int.ofNat T)).minutes * 60 + (Validate (Int.ofNat T)).seconds =
      Int.ofNat T ∧
      0 ≤ (Validate (Int.ofNat T)).days ∧
      0 ≤ (Validate (Int.ofNat T)).hours ∧ (Validate (Int.ofNat T)).hours < 24 ∧
      0 ≤ (Validate (Int.ofNat T)).minutes ∧ (Validate (Int.ofNat T)).minutes < 60 ∧
      0 ≤ (Validate (Int.ofNat T)).seconds ∧ (Validate (Int.ofNat T)).seconds < 60 := by
  have hd : (Validate (Int.ofNat T)).days = Int.ofNat (T / 86400) := rfl
  have hh : (Validate (Int.ofNat T)).hours = Int.ofNat (T % 86400 / 3600) := rfl
  have hm : (Validate (Int.ofNat T)).minutes = Int.ofNat (T % 86400 % 3600 / 60) := rfl
  have hs : (Validate (Int.ofNat T)).seconds = Int.ofNat (T % 86400 % 3600 % 60) := rfl
  rw [hd, hh, hm, hs]
  simp only [Int.ofNat_eq_natCast]
  omega

/-- C3: for every constructed duration value with non-negative total seconds, the
normalized components satisfy the decomposition identity against duration() and
lie in their stated ranges, for all three construction variants. -/
theorem components_invariant (p : CTimePeriod) (hc : Constructed p)
    (h : 0 ≤ duration p) :
    p.days * 86400 + p.hours * 3600 + p.minutes * 60 + p.seconds = duration p ∧
      0 ≤ p.days ∧ 0 ≤ p.hours ∧ p.hours < 24 ∧ 0 ≤ p.minutes ∧ p.minutes < 60 ∧
      0 ≤ p.seconds ∧ p.seconds < 60 := by
  obtain ⟨t, rfl⟩ := constructed_validate p hc
  have ht : 0 ≤ t := h
  obtain ⟨T, rfl⟩ := Int.eq_ofNat_of_zero_le ht
  exact validate_nonneg_spec T

theorem components_invariant_witness :
    Constructed (mkFromString "2h 30m 15s") ∧ 0 ≤ duration (mkFromString "2h 30m 15s") ∧
      (mkFromString "2h 30m 15s").days * 86400 + (mkFromString "2h 30m 15s").hours * 3600 +
          (mkFromString "2h 30m 15s").minutes * 60 + (mkFromString "2h 30m 15s").seconds =
        duration (mkFromString "2h 30m 15s") :=
  ⟨Or.inr (Or.inl ⟨"2h 30m 15s", rfl⟩), by decide,
    (components_invariant (mkFromString "2h 30m 15s")
      (Or.inr (Or.inl ⟨"2h 30m 15s", rfl⟩)) (by decide)).1⟩

/-- C4: equality and strict ordering of constructed duration values are
determined solely by the total-seconds count, regardless of the construction
variant. -/
theorem comparison_by_total (a b : CTimePeriod) (ha : Constructed a)
    (hb : Constructed b) :
    (a = b ↔ duration a = duration b) ∧ (cLT a b ↔ duration a < duration b) := by
  obtain ⟨t1, rfl⟩ := constructed_validate a ha
  obtain ⟨t2, rfl⟩ := constructed_validate b hb
  constructor
  · constructor
    · intro h
      rw [h]
    · intro h
      have ht : t1 = t2 := h
      rw [ht]
  · constructor
    · intro h
      rcases h with h | ⟨heq, hrest⟩
      · exact h
      · have ht : t1 = t2 := heq
        subst ht
        simp [lt_irrefl] at hrest
    · intro h
      exact Or.inl h

theorem comparison_by_total_witness :
    mkFromSeconds 60 = mkFromComponents 0 1 0 0 :=
  ((comparison_by_total (mkFromSeconds 60) (mkFromComponents 0 1 0 0)
    (Or.inr (Or.inr ⟨60, rfl⟩)) (Or.inl ⟨0, 1, 0, 0, rfl⟩)).1).mpr (by decide)

/-- C2 counterexample: parsing "1h 2h" does not yield 7200 seconds; the scanner
accumulates 1 + 2 = 3 under multiplier 3600, giving 10800. -/
theorem parse_summation_counterexample : Parse "1h 2h" ≠ 7200 := by decide

/-- C2 amended: parsing the string "1h 2h" yields a total of 10800 seconds (the
two hour-valued tokens accumulate to 3 hours). -/
theorem parse_summation_amended : Parse "1h 2h" = 10800 := by decide

/-- C5: a maximal digit run with no immediately following alphabetic unit
literal (including one at the end of the source) is accumulated under multiplier
60; in particular parse("90") = 5400. -/
theorem default_unit_minutes :
    (∀ (ds rest : List Char) (res : List (Int × Int)),
        ds ≠ [] → (∀ c ∈ ds, c.isDigit = true) →
        (∀ c ∈ rest.head?, c.isDigit = false ∧ c.isAlpha = false) →
        scanFrom tokenTable (ds ++ rest) res =
          scanFrom tokenTable rest (addMultValue 60 (Int.ofNat (digitsVal ds)) res)) ∧
      Parse "90" = 5400 := by
  constructor
  · intro ds rest res hne hdig hhead
    rw [scanFrom_token tokenTable ds rest res hne hdig
      (takeWhile_eq_nil_of_head _ _ (fun c hc => (hhead c hc).1))
      (dropWhile_eq_self_of_head _ _ (fun c hc => (hhead c hc).1))]
    rw [takeWhile_eq_nil_of_head _ _ (fun c hc => (hhead c hc).2),
      dropWhile_eq_self_of_head _ _ (fun c hc => (hhead c hc).2)]
    rw [if_pos rfl]
  · decide

theorem default_unit_minutes_witness :
    scanFrom tokenTable (['9', '0'] ++ []) [] =
        scanFrom tokenTable [] (addMultValue 60 (Int.ofNat (digitsVal ['9', '0'])) []) ∧
      Parse "90" = 5400 :=
  ⟨default_unit_minutes.1 ['9', '0'] [] [] (by decide) (by decide) (by simp),
    default_unit_minutes.2⟩

/-- C6: a token whose non-empty unit literal is not found in the unit table is
silently dropped: the accumulator is unchanged, scanning continues after the
token, and the parse result equals the parse with the token removed. -/
theorem unknown_unit_dropped :
    (∀ (ds ls rest : List Char) (res : List (Int × Int)),
        ds ≠ [] → (∀ c ∈ ds, c.isDigit = true) →
        ls ≠ [] → (∀ c ∈ ls, c.isAlpha = true) →
        lookupTok (String.mk ls) tokenTable = none →
        (∀ c ∈ rest.head?, c.isAlpha = false) →
        scanFrom tokenTable (ds ++ (ls ++ rest)) res = scanFrom tokenTable rest res) ∧
      Parse "1h 2x 3m" = Parse "1h 3m" := by
  constructor
  · intro ds ls rest res hdne hdig hlne halpha hlook hhead
    obtain ⟨c0, ls', rfl⟩ : ∃ c0 ls', ls = c0 :: ls' := by
      cases ls with
      | nil => exact absurd rfl hlne
      | cons c0 ls' => exact ⟨c0, ls', rfl⟩
    have hc0a : c0.isAlpha = true := halpha c0 (List.mem_cons_self _ _)
    have hc0d : c0.isDigit = false := alpha_not_digit c0 hc0a
    rw [scanFrom_token tokenTable ds ((c0 :: ls') ++ rest) res hdne hdig
      (takeWhile_eq_nil_of_head _ _ (by intro c hc; simp at hc; subst hc; exact hc0d))
      (dropWhile_eq_self_of_head _ _ (by intro c hc; simp at hc; subst hc; exact hc0d))]
    have htwa : ((c0 :: ls') ++ rest).takeWhile Char.isAlpha = c0 :: ls' := by
      rw [takeWhile_append_all _ _ _ halpha, takeWhile_eq_nil_of_head _ _ hhead,
        List.append_nil]
    have hdwa : ((c0 :: ls') ++ rest).dropWhile Char.isAlpha = rest := by
      rw [dropWhile_append_all _ _ _ halpha, dropWhile_eq_self_of_head _ _ hhead]
    rw [htwa, hdwa]
    rw [if_neg (by simp : ¬(c0 :: ls' : List Char) = [])]
    unfold addLiteralValue
    rw [hlook]
  · decide

theorem unknown_unit_dropped_witness :
    scanFrom tokenTable (['1'] ++ (['x'] ++ [])) [] = scanFrom tokenTable [] [] ∧
      Parse "1h 2x 3m" = Parse "1h 3m" :=
  ⟨unknown_unit_dropped.1 ['1'] ['x'] [] [] (by decide) (by decide) (by decide) (by decide)
      (by decide) (by simp),
    unknown_unit_dropped.2⟩

/-- C7: when the resolved multiplier already has an accumulated value, the new
value is added to it rather than replacing it; for "1h 2h" the accumulator entry
for multiplier 3600 holds 3. -/
theorem accumulate_adds :
    (∀ (m v w : Int) (res : List (Int × Int)),
        lookupRes m res = some w →
        lookupRes m (addMultValue m v res) = some (w + v)) ∧
      lookupRes 3600 (ScanTokens tokenTable ("1h 2h").data) = some 3 := by
  constructor
  · intro m v w res
    induction res with
    | nil =>
      intro h
      simp [lookupRes] at h
    | cons p rest ih =>
      obtain ⟨k, u⟩ := p
      intro h
      by_cases hk : k = m
      · subst hk
        simp only [lookupRes, if_pos rfl, if_true] at h
        simp only [addMultValue, if_pos rfl, if_true, lookupRes]
        cases h
        rfl
      · simp only [lookupRes, if_neg hk] at h
        simp only [addMultValue, if_neg hk, lookupRes]
        exact ih h
  · decide

theorem accumulate_adds_witness :
    lookupRes 3600 (addMultValue 3600 2 [(3600, 1)]) = some (1 + 2) ∧
      lookupRes 3600 (ScanTokens tokenTable ("1h 2h").data) = some 3 :=
  ⟨accumulate_adds.1 3600 2 1 [(3600, 1)] (by decide), accumulate_adds.2⟩

/-- C9: asSqlInterval renders "interval N second" with N the raw total-seconds
count and the singular word "second"; in particular construct(90) renders
"interval 90 second". -/
theorem sql_interval_format :
    (∀ t : Int, asSqlInterval (Validate t) = "interval " ++ intToString t ++ " second") ∧
      asSqlInterval (mkFromSeconds 90) = "interval 90 second" :=
  ⟨fun _ => rfl, by decide⟩

/-- C10: for every signed 64-bit total-seconds value, including negative ones,
the components produced by Validate satisfy the truncating division/modulo
decomposition identity. -/
theorem raw_total_identity (t : Int) (h1 : -(2 ^ 63) ≤ t) (h2 : t < 2 ^ 63) :
    (Validate t).days * 86400 + (Validate t).hours * 3600 + (Validate t).minutes * 60 +
      (Validate t).seconds = t := by
  have e1 := Int.tdiv_add_tmod t 86400
  have e2 := Int.tdiv_add_tmod (t.tmod 86400) 3600
  have e3 := Int.tdiv_add_tmod ((t.tmod 86400).tmod 3600) 60
  have hd : (Validate t).days = t.tdiv 86400 := rfl
  have hh : (Validate t).hours = (t.tmod 86400).tdiv 3600 := rfl
  have hm : (Validate t).minutes = ((t.tmod 86400).tmod 3600).tdiv 60 := rfl
  have hs : (Validate t).seconds = ((t.tmod 86400).tmod 3600).tmod 60 := rfl
  rw [hd, hh, hm, hs]
  omega

theorem raw_total_identity_witness :
    -(2 ^ 63) ≤ (-90 : Int) ∧ (-90 : Int) < 2 ^ 63 ∧
      (Validate (-90)).days * 86400 + (Validate (-90)).hours * 3600 +
        (Validate (-90)).minutes * 60 + (Validate (-90)).seconds = -90 :=
  ⟨by norm_num, by norm_num, raw_total_identity (-90) (by norm_num) (by norm_num)⟩

/-- C1 counterexample: 90 minutes formats as "1h 30m " with a trailing space, so
toString does not match the claimed rendering whose last emitted component
carries no trailing space. -/
theorem format_counterexample :
    toString (mkFromSeconds 5400) = "1h 30m " ∧
      claimToString (mkFromSeconds 5400).days (mkFromSeconds 5400).hours
          (mkFromSeconds 5400).minutes (mkFromSeconds 5400).seconds = "1h 30m" ∧
      toString (mkFromSeconds 5400) ≠
        claimToString (mkFromSeconds 5400).days (mkFromSeconds 5400).hours
          (mkFromSeconds 5400).minutes (mkFromSeconds 5400).seconds :=
  ⟨by decide, by decide, by decide⟩

/-- C1 amended: for every duration value with non-negative total seconds,
toString returns exactly the string built by emitting "{days}d " if days > 0,
"{hours}h " if hours > 0, "{minutes}m " if minutes > 0, and "{seconds}s" if
seconds > 0 or nothing has been emitted yet; the days, hours and minutes
components keep their trailing space even when final, so 90 minutes renders as
"1h 30m " with a trailing space. -/
theorem format_amended (p : CTimePeriod) (h : 0 ≤ duration p) :
    toString p = amendedToString p.days p.hours p.minutes p.seconds :=
  toString_parts p

theorem format_amended_witness :
    0 ≤ duration (mkFromSeconds 5400) ∧
      toString (mkFromSeconds 5400) =
        amendedToString (mkFromSeconds 5400).days (mkFromSeconds 5400).hours
          (mkFromSeconds 5400).minutes (mkFromSeconds 5400).seconds :=
  ⟨by decide, format_amended (mkFromSeconds 5400) (by decide)⟩

/-- C8: for every non-negative total-seconds value T, parsing the string
produced by construct(T).toString() and reconstructing yields a duration value
whose total seconds equals T. -/
theorem format_roundtrip (t : Int) (ht : 0 ≤ t) :
    duration (mkFromSeconds (Parse (toString (mkFromSeconds t)))) = t := by
  obtain ⟨T, rfl⟩ := Int.eq_ofNat_of_zero_le ht
  show duration (mkFromSeconds (Parse (toString (mkFromSeconds (Int.ofNat T))))) = Int.ofNat T
  have hd : (mkFromSeconds (Int.ofNat T)).days = Int.ofNat (T / 86400) := rfl
  have hh : (mkFromSeconds (Int.ofNat T)).hours = Int.ofNat (T % 86400 / 3600) := rfl
  have hm : (mkFromSeconds (Int.ofNat T)).minutes = Int.ofNat (T % 86400 % 3600 / 60) := rfl
  have hs : (mkFromSeconds (Int.ofNat T)).seconds = Int.ofNat (T % 86400 % 3600 % 60) := rfl
  have hps : Parse (toString (mkFromSeconds (Int.ofNat T))) = Int.ofNat T := by
    rw [show toString (mkFromSeconds (Int.ofNat T)) =
        amendedToString (mkFromSeconds (Int.ofNat T)).days (mkFromSeconds (Int.ofNat T)).hours
          (mkFromSeconds (Int.ofNat T)).minutes (mkFromSeconds (Int.ofNat T)).seconds
      from toString_parts _]
    rw [hd, hh, hm, hs]
    unfold Parse
    rw [amendedToString_data (Int.ofNat (T / 86400)) (Int.ofNat (T % 86400 / 3600))
      (Int.ofNat (T % 86400 % 3600 / 60)) (Int.ofNat (T % 86400 % 3600 % 60))
      (ofNat_nonneg_int _) (ofNat_nonneg_int _) (ofNat_nonneg_int _) (ofNat_nonneg_int _)]
    rw [total_part (Int.ofNat (T / 86400)) 'd' 86400 _
      (ofNat_nonneg_int _) (by decide) (by decide) (by decide)]
    rw [total_part (Int.ofNat (T % 86400 / 3600)) 'h' 3600 _
      (ofNat_nonneg_int _) (by decide) (by decide) (by decide)]
    rw [total_part (Int.ofNat (T % 86400 % 3600 / 60)) 'm' 60 _
      (ofNat_nonneg_int _) (by decide) (by decide) (by decide)]
    rw [total_endPart (Int.ofNat (T / 86400)) (Int.ofNat (T % 86400 / 3600))
      (Int.ofNat (T % 86400 % 3600 / 60)) (Int.ofNat (T % 86400 % 3600 % 60))
      (ofNat_nonneg_int _)]
    simp only [Int.ofNat_eq_natCast]
    omega
  rw [hps]
  rfl

theorem format_roundtrip_witness :
    (0 : Int) ≤ 93784 ∧
      duration (mkFromSeconds (Parse (toString (mkFromSeconds 93784)))) = 93784 :=
  ⟨by norm_num, format_roundtrip 93784 (by norm_num)⟩

end timeduration
